import Mathlib

/-!
Shallow embedding of the go-lsm SSTable writer and reader
(`internal/sstable/writer.go`, `internal/sstable/reader.go`,
`internal/sstable/index.go`, `block.go`, `format.go`).

Byte sequences are modelled as `List Nat` (each element a byte value);
Go's fixed-width unsigned integers are `Nat` with explicit `% 2^32` /
`% 2^64` truncation where the source casts or can overflow.  File I/O is
modelled by passing the file's byte contents; a `Seek`+`ReadFull`
sequence becomes a bounds-checked slice of that list.  Fallible Go code
returns `Except Err` here, and the one reachable runtime panic
(indexing `entries[-1]` in `findBlockHandle`) is an explicit result.
-/

namespace GoLsm

abbrev Bytes := List Nat

/-- Truncation to a Go `uint32`. -/
def u32 (n : Nat) : Nat := n % 2^32

/-- Truncation to a Go `uint64`. -/
def u64 (n : Nat) : Nat := n % 2^64

/-- Little-endian encoding of a `uint32` value (4 bytes), as produced by
`binary.Write(buf, binary.LittleEndian, uint32(n))`. -/
def le32 (n : Nat) : Bytes :=
  [n % 256, n / 2^8 % 256, n / 2^16 % 256, n / 2^24 % 256]

/-- Little-endian encoding of a `uint64` value (8 bytes). -/
def le64 (n : Nat) : Bytes :=
  [n % 256, n / 2^8 % 256, n / 2^16 % 256, n / 2^24 % 256,
   n / 2^32 % 256, n / 2^40 % 256, n / 2^48 % 256, n / 2^56 % 256]

/-- Decode a little-endian byte list into a `Nat`. -/
def deLE (bs : Bytes) : Nat := bs.foldr (fun b acc => b % 256 + 256 * acc) 0

/-- Go `bytes.Compare`: lexicographic comparison of byte slices, a strict
prefix comparing less than the longer slice. -/
def bytesCompare : Bytes → Bytes → Ordering
  | [], [] => Ordering.eq
  | [], _ :: _ => Ordering.lt
  | _ :: _, [] => Ordering.gt
  | a :: as, b :: bs =>
    if a < b then Ordering.lt
    else if b < a then Ordering.gt
    else bytesCompare as bs

/-- One byte step of the reflected CRC-32 (IEEE polynomial 0xEDB88320),
as in Go's `hash/crc32` with the IEEE table. -/
def crcByte (crc b : Nat) : Nat :=
  (List.range 8).foldl
    (fun c _ => if c % 2 = 1 then Nat.xor (c / 2) 0xEDB88320 else c / 2)
    (Nat.xor (crc % 2^32) (b % 256))

/-- `crc32.ChecksumIEEE` / `calculateCRC` from `format.go`. -/
def calculateCRC (data : Bytes) : Nat :=
  Nat.xor (data.foldl crcByte 0xFFFFFFFF) 0xFFFFFFFF

/-! ### Block (data block), from `block.go` -/

/-- A key-value pair in a block (`Entry` in `block.go`). -/
structure Entry where
  key : Bytes
  value : Bytes
deriving Repr, DecidableEq

/-- A data block: entries plus the running accumulated `uint32` size
(`Block` in `block.go`). -/
structure Block where
  entries : List Entry
  size : Nat
deriving Repr, DecidableEq

def NewBlock : Block := ⟨[], 0⟩

/-- `Block.AddEntry`: append the entry and grow `size` by
`uint32(len(key)+len(value))`, with `uint32` wrap-around. -/
def Block.AddEntry (b : Block) (key value : Bytes) : Block :=
  { entries := b.entries ++ [⟨key, value⟩],
    size := u32 (b.size + u32 (key.length + value.length)) }

def BlockSize : Nat := 4 * 1024

/-- `Block.IsFull`: `b.size >= BlockSize`. -/
def Block.IsFull (b : Block) : Bool := BlockSize ≤ b.size

/-- `Block.IsEmpty`: `len(b.entries) == 0`. -/
def Block.IsEmpty (b : Block) : Bool := b.entries.length == 0

/-- `Block.KeyCount`: `len(b.entries)`. -/
def Block.KeyCount (b : Block) : Nat := b.entries.length

/-- `Block.Encode`: `[entry_count:u32]` then per entry
`[key_len:u32][key][value_len:u32][value]`, all little-endian. -/
def Block.Encode (b : Block) : Bytes :=
  le32 b.entries.length ++
    b.entries.flatMap (fun e =>
      le32 e.key.length ++ e.key ++ le32 e.value.length ++ e.value)

/-! ### Index block, from `index.go` -/

/-- Location and size of a block in the file (`BlockHandle`,
both fields `uint64`). -/
structure BlockHandle where
  Offset : Nat
  Size : Nat
deriving Repr, DecidableEq

/-- An index-block entry: first key of a data block and its handle
(`IndexEntry`). -/
structure IndexEntry where
  Key : Bytes
  blockHandle : BlockHandle
deriving Repr, DecidableEq

/-- The index block (`IBlock`). -/
structure IBlock where
  entries : List IndexEntry
deriving Repr, DecidableEq

def NewIBlock : IBlock := ⟨[]⟩

/-- `IBlock.AddEntry`: append in call order, no sorting or validation. -/
def IBlock.AddEntry (ib : IBlock) (key : Bytes) (h : BlockHandle) : IBlock :=
  ⟨ib.entries ++ [⟨key, h⟩]⟩

/-- `IBlock.Encode`: `[entry_count:u32]` then per entry
`[key_len:u32][key][offset:u64][size:u64]`. -/
def IBlock.Encode (ib : IBlock) : Bytes :=
  le32 ib.entries.length ++
    ib.entries.flatMap (fun e =>
      le32 e.Key.length ++ e.Key ++
        le64 e.blockHandle.Offset ++ le64 e.blockHandle.Size)

/-! ### Block metadata and footer, from `format.go` -/

/-- `BlockMetadata{Type:BlockType, CRC:u32, Size:u32, KeyCount:u32,
Compressed:bool}`; `btype` is the `BlockType` byte (0 = Data, 1 = Index). -/
structure BlockMetadata where
  btype : Nat
  CRC : Nat
  Size : Nat
  KeyCount : Nat
  Compressed : Bool
deriving Repr, DecidableEq

/-- `binary.Size(BlockMetadata)` = 1 + 4 + 4 + 4 + 1 bytes. -/
def MetadataSize : Nat := 14

/-- `binary.Write(w, LittleEndian, metadata)`: the struct fields in
declaration order. -/
def encodeMetadata (m : BlockMetadata) : Bytes :=
  [m.btype % 256] ++ le32 m.CRC ++ le32 m.Size ++ le32 m.KeyCount ++
    [if m.Compressed then 1 else 0]

/-- `binary.Read` of a `BlockMetadata` from 14 bytes. -/
def decodeMetadata (bs : Bytes) : BlockMetadata :=
  { btype := bs.getD 0 0 % 256,
    CRC := deLE ((bs.drop 1).take 4),
    Size := deLE ((bs.drop 5).take 4),
    KeyCount := deLE ((bs.drop 9).take 4),
    Compressed := bs.getD 13 0 % 256 ≠ 0 }

def MagicNumber : Nat := 0x8773537461626c65
def CurrentVersion : Nat := 1
def FooterSize : Nat := 64

/-- `Footer` from `format.go`: `CreatedAt` is a signed `int64` unix
timestamp, `CompressionType` a `uint8` enum (0 = none). -/
structure Footer where
  IndexHandle : BlockHandle
  FilterHandle : BlockHandle
  MagicNumber : Nat
  Version : Nat
  CreatedAt : Int
  CompressionType : Nat
deriving Repr, DecidableEq

/-- Two's-complement `int64` little-endian encoding, as `binary.Write`
produces for an `int64`. -/
def le64i (n : Int) : Bytes := le64 (n % (2^64 : Int)).toNat

/-- `Footer.Encode`: the fields written in order via `binary.Write`
(53 bytes; the writer pads to `FooterSize`). -/
def Footer.Encode (f : Footer) : Bytes :=
  le64 f.IndexHandle.Offset ++ le64 f.IndexHandle.Size ++
    le64 f.FilterHandle.Offset ++ le64 f.FilterHandle.Size ++
    le64 f.MagicNumber ++ le32 f.Version ++ le64i f.CreatedAt ++
    [f.CompressionType % 256]

/-- Error values surfaced by the reader/writer paths. -/
inductive Err where
  /-- `os.File.Seek` to a negative offset fails with `EINVAL`. -/
  | seekErr
  /-- `io.EOF`, as returned by `bytes.Reader.Read` at end of buffer or
  by a strict read that obtains zero bytes. -/
  | eofErr
  /-- `io.ErrUnexpectedEOF` / short strict read via `binary.Read`. -/
  | unexpectedEof
  /-- Wrong magic number in the footer. -/
  | badMagic
  /-- Index block metadata does not declare `IndexBlock` type. -/
  | badIndexType
  /-- CRC mismatch while loading the index block. -/
  | indexCrcMismatch
  /-- CRC mismatch while loading a data block (`"block CRC mismatch"`). -/
  | blockCrcMismatch
  /-- `"key not found"` from `searchInBlock`. -/
  | keyNotFound
  /-- `"index block not loaded"` guard in `Reader.Get`. -/
  | indexNotLoaded
deriving Repr, DecidableEq

/-- `DecodeFooter`: sequential strict `binary.Read`s from the 64 footer
bytes (53 bytes consumed). -/
def DecodeFooter (data : Bytes) : Except Err Footer :=
  if data.length < 53 then Except.error Err.unexpectedEof
  else
    let v := deLE ((data.drop 44).take 8)
    Except.ok
      { IndexHandle := ⟨deLE (data.take 8), deLE ((data.drop 8).take 8)⟩,
        FilterHandle := ⟨deLE ((data.drop 16).take 8), deLE ((data.drop 24).take 8)⟩,
        MagicNumber := deLE ((data.drop 32).take 8),
        Version := deLE ((data.drop 40).take 4),
        CreatedAt := if v < 2^63 then (v : Int) else (v : Int) - 2^64,
        CompressionType := data.getD 52 0 % 256 }

/-! ### Writer, from `writer.go`

The writer's file handle and buffered writer collapse to `out`, the
bytes written so far (data blocks, then at close the index block and
footer).  Go's `time`-derived file name and `CreatedAt` timestamp are
irrelevant to the format; `close` takes the timestamp as a parameter. -/

structure Writer where
  out : Bytes
  block : Block
  index : IBlock
  offset : Nat
deriving Repr, DecidableEq

/-- `NewWriter`: fresh file, empty current block and index, offset 0. -/
def NewWriterState : Writer := ⟨[], NewBlock, NewIBlock, 0⟩

/-- `Writer.flushBlock`: no-op on an empty block; otherwise record
`(firstKey, BlockHandle{Offset: w.offset, Size: uint64(w.block.size)})`
into the index, write `BlockMetadata` then the encoded payload, advance
the offset by `len(data) + binary.Size(metadata)`, and start a fresh
block. -/
def Writer.flushBlock (w : Writer) : Writer :=
  if w.block.IsEmpty then w
  else
    let firstKey := (w.block.entries.headD ⟨[], []⟩).key
    let blockHandle : BlockHandle := ⟨w.offset, u64 w.block.size⟩
    let data := w.block.Encode
    let metadata : BlockMetadata :=
      { btype := 0, CRC := calculateCRC data, Size := u32 data.length,
        KeyCount := u32 w.block.KeyCount, Compressed := false }
    { out := w.out ++ encodeMetadata metadata ++ data,
      block := NewBlock,
      index := w.index.AddEntry firstKey blockHandle,
      offset := u64 (w.offset + u64 data.length + MetadataSize) }

/-- `Writer.Write`: flush first if the current block `IsFull`, then
append the pair to the current block. -/
def Writer.write (w : Writer) (key value : Bytes) : Writer :=
  let w' := if w.block.IsFull then w.flushBlock else w
  { w' with block := w'.block.AddEntry key value }

/-- `Writer.Close`: flush the current block, write the index block with
its metadata, then the footer padded to exactly `FooterSize` bytes.
Returns the full file contents.  (The source's `len(footerData) >
FooterSize` error branch is unreachable: `Footer.Encode` always yields
53 bytes, proved in `footer_encode_length` below.) -/
def Writer.close (w : Writer) (createdAt : Int) : Bytes :=
  let w' := w.flushBlock
  let indexOffset := w'.offset
  let indexData := w'.index.Encode
  let indexMetadata : BlockMetadata :=
    { btype := 1, CRC := calculateCRC indexData, Size := u32 indexData.length,
      KeyCount := u32 w'.index.entries.length, Compressed := false }
  let footer : Footer :=
    { IndexHandle := ⟨indexOffset, u64 indexData.length⟩,
      FilterHandle := ⟨0, 0⟩,
      MagicNumber := MagicNumber,
      Version := CurrentVersion,
      CreatedAt := createdAt,
      CompressionType := 0 }
  let footerData := footer.Encode
  w'.out ++ encodeMetadata indexMetadata ++ indexData ++
    (footerData ++ List.replicate (FooterSize - footerData.length) 0)

/-- A full writer session: `NewWriter`, `Write` for each pair in order,
then `Close` (with timestamp 0); yields the file bytes. -/
def writeAll (ps : List (Bytes × Bytes)) : Bytes :=
  (ps.foldl (fun w p => w.write p.1 p.2) NewWriterState).close 0

/-! ### Reader, from `reader.go` -/

/-- Strict read of `n` bytes at position `pos` of the file
(`Seek` + `io.ReadFull` / `binary.Read`): fails unless `n` bytes
remain. -/
def readAt (file : Bytes) (pos n : Nat) : Option Bytes :=
  if pos + n ≤ file.length then some ((file.drop pos).take n) else none

/-- Strict little-endian `uint32` read from a `bytes.Reader` position
(`binary.Read`): `io` error if fewer than 4 bytes remain. -/
def readU32 (data : Bytes) (pos : Nat) : Except Err Nat :=
  if pos + 4 ≤ data.length then Except.ok (deLE ((data.drop pos).take 4))
  else Except.error Err.unexpectedEof

/-- Strict little-endian `uint64` read from a `bytes.Reader` position. -/
def readU64 (data : Bytes) (pos : Nat) : Except Err Nat :=
  if pos + 8 ≤ data.length then Except.ok (deLE ((data.drop pos).take 8))
  else Except.error Err.unexpectedEof

/-- Go `bytes.Reader.Read` into a `k`-byte zero-initialized slice:
`io.EOF` only when the position is already at or past the end;
otherwise copies `min k remaining` bytes — a short read returns the
truncated, zero-padded slice with no error. -/
def bufRead (data : Bytes) (pos k : Nat) : Except Err (Bytes × Nat) :=
  if data.length ≤ pos then Except.error Err.eofErr
  else
    let m := min k (data.length - pos)
    Except.ok ((data.drop pos).take k ++ List.replicate (k - m) 0, pos + m)

/-- The per-entry loop of `Reader.decodeIndexBlock`: `numEntries`
iterations of key-length, key (`buf.Read`), offset, size, each
returning its error immediately. -/
def decodeIndexLoop (data : Bytes) : Nat → Nat → Except Err (List IndexEntry)
  | 0, _ => Except.ok []
  | n + 1, pos =>
    match readU32 data pos with
    | Except.error e => Except.error e
    | Except.ok keyLen =>
      match bufRead data (pos + 4) keyLen with
      | Except.error e => Except.error e
      | Except.ok (key, pos1) =>
        match readU64 data pos1 with
        | Except.error e => Except.error e
        | Except.ok off =>
          match readU64 data (pos1 + 8) with
          | Except.error e => Except.error e
          | Except.ok sz =>
            match decodeIndexLoop data n (pos1 + 16) with
            | Except.error e => Except.error e
            | Except.ok rest => Except.ok (⟨key, ⟨off, sz⟩⟩ :: rest)

/-- `Reader.decodeIndexBlock`: entry count then the entry loop. -/
def decodeIndexBlock (data : Bytes) : Except Err IBlock :=
  match readU32 data 0 with
  | Except.error e => Except.error e
  | Except.ok numEntries =>
    match decodeIndexLoop data numEntries 4 with
    | Except.error e => Except.error e
    | Except.ok entries => Except.ok ⟨entries⟩

/-- The per-entry decode loop inside `Reader.readBlock`: key-length,
key (`buf.Read`), value-length, value (`buf.Read`), each returning its
error immediately. -/
def decodeBlockLoop (data : Bytes) : Nat → Nat → Except Err (List Entry)
  | 0, _ => Except.ok []
  | n + 1, pos =>
    match readU32 data pos with
    | Except.error e => Except.error e
    | Except.ok keyLen =>
      match bufRead data (pos + 4) keyLen with
      | Except.error e => Except.error e
      | Except.ok (key, pos1) =>
        match readU32 data pos1 with
        | Except.error e => Except.error e
        | Except.ok valueLen =>
          match bufRead data (pos1 + 4) valueLen with
          | Except.error e => Except.error e
          | Except.ok (value, pos2) =>
            match decodeBlockLoop data n pos2 with
            | Except.error e => Except.error e
            | Except.ok rest => Except.ok (⟨key, value⟩ :: rest)

/-- The payload-decoding tail of `Reader.readBlock`: entry count then
the entry loop.  The reader's `&Block{}` leaves `size` at zero. -/
def decodeBlock (data : Bytes) : Except Err Block :=
  match readU32 data 0 with
  | Except.error e => Except.error e
  | Except.ok numEntries =>
    match decodeBlockLoop data numEntries 4 with
    | Except.error e => Except.error e
    | Except.ok entries => Except.ok ⟨entries, 0⟩

/-- `Reader.loadIndexBlock`: stat the file, seek to
`size - FooterSize` (a negative target makes `Seek` fail), read and
decode the footer, check the magic number, seek to the index handle's
offset (`uint64` cast to `int64`: an offset ≥ 2^63 is a negative seek),
read the index `BlockMetadata`, require the `IndexBlock` type, read
`metadata.Size` payload bytes, verify the CRC, and decode.  Each step
returns its error immediately, as the source's early returns do. -/
def loadIndexBlock (file : Bytes) : Except Err IBlock :=
  if file.length < FooterSize then Except.error Err.seekErr
  else
    match readAt file (file.length - FooterSize) FooterSize with
    | none => Except.error Err.unexpectedEof
    | some footerData =>
      match DecodeFooter footerData with
      | Except.error e => Except.error e
      | Except.ok footer =>
        if footer.MagicNumber ≠ MagicNumber then Except.error Err.badMagic
        else if 2^63 ≤ footer.IndexHandle.Offset then Except.error Err.seekErr
        else
          match readAt file footer.IndexHandle.Offset MetadataSize with
          | none => Except.error Err.unexpectedEof
          | some mdBytes =>
            if (decodeMetadata mdBytes).btype ≠ 1 then Except.error Err.badIndexType
            else
              match readAt file (footer.IndexHandle.Offset + MetadataSize)
                  (decodeMetadata mdBytes).Size with
              | none => Except.error Err.unexpectedEof
              | some data =>
                if calculateCRC data ≠ (decodeMetadata mdBytes).CRC then
                  Except.error Err.indexCrcMismatch
                else decodeIndexBlock data

/-- The `Reader` struct: the file contents stand in for the open file
handle; `indexBlock` is `nil` until `loadIndexBlock` succeeds. -/
structure Reader where
  file : Bytes
  indexBlock : Option IBlock
deriving Repr, DecidableEq

instance {ε α : Type} [DecidableEq ε] [DecidableEq α] :
    DecidableEq (Except ε α) := fun a b =>
  match a, b with
  | Except.error x, Except.error y =>
    if h : x = y then Decidable.isTrue (congrArg _ h)
    else Decidable.isFalse (fun hh => h (by cases hh; rfl))
  | Except.ok x, Except.ok y =>
    if h : x = y then Decidable.isTrue (congrArg _ h)
    else Decidable.isFalse (fun hh => h (by cases hh; rfl))
  | Except.error _, Except.ok _ => Decidable.isFalse (fun hh => Except.noConfusion hh)
  | Except.ok _, Except.error _ => Decidable.isFalse (fun hh => Except.noConfusion hh)

/-- Outcome of `NewReader`: the construction result plus whether the
just-opened file handle was closed again (the source calls
`file.Close()` exactly when `loadIndexBlock` fails). -/
structure NewReaderOutcome where
  result : Except Err Reader
  fileClosed : Bool
deriving Repr, DecidableEq

/-- `NewReader` (file opening itself modelled as succeeding: the file's
bytes are given). -/
def NewReader (file : Bytes) : NewReaderOutcome :=
  match loadIndexBlock file with
  | Except.error e => ⟨Except.error e, true⟩
  | Except.ok ib => ⟨Except.ok ⟨file, some ib⟩, false⟩

/-- Default `IndexEntry` used for out-of-range `getD` indexing; the
source's accesses are all in range except the `entries[-1]` panic,
which is modelled explicitly. -/
def dIE : IndexEntry := ⟨[], ⟨0, 0⟩⟩

/-- The binary-search loop of `Reader.findBlockHandle`: narrow `[l, r]`
until `l = r`, moving `l` past `mid` when `entries[mid].Key <= key`. -/
def bsLoop (es : List IndexEntry) (key : Bytes) (l r : Nat) : Nat :=
  if _h : l < r then
    let mid := (l + r) / 2
    if bytesCompare (es.getD mid dIE).Key key ≠ Ordering.gt then
      bsLoop es key (mid + 1) r
    else
      bsLoop es key l mid
  else l
termination_by r - l
decreasing_by
  all_goals omega

/-- `Reader.findBlockHandle`: on an empty index the source indexes
`entries[len(entries)-1] = entries[-1]` and panics (`none` here);
otherwise: last block when `key >= last.Key`, else binary search for
the first entry with key greater than `key` and step back one, clamped
to 0. -/
def findBlockHandle (es : List IndexEntry) (key : Bytes) : Option BlockHandle :=
  match es with
  | [] => none
  | _ :: _ =>
    let right := es.length - 1
    if bytesCompare key (es.getD right dIE).Key ≠ Ordering.lt then
      some (es.getD right dIE).blockHandle
    else
      let left := bsLoop es key 0 right
      some (es.getD (if 0 < left then left - 1 else left) dIE).blockHandle

/-- `Reader.readBlock`: seek to the handle's offset (`uint64` → `int64`
cast, negative target fails), read the `BlockMetadata`, read exactly
`metadata.Size` payload bytes, verify the CRC, decode the entries.
Note: the block type byte is not checked here. -/
def readBlock (file : Bytes) (handle : BlockHandle) : Except Err Block :=
  if 2^63 ≤ handle.Offset then Except.error Err.seekErr
  else
    match readAt file handle.Offset MetadataSize with
    | none => Except.error Err.unexpectedEof
    | some mdBytes =>
      match readAt file (handle.Offset + MetadataSize) (decodeMetadata mdBytes).Size with
      | none => Except.error Err.unexpectedEof
      | some data =>
        if calculateCRC data ≠ (decodeMetadata mdBytes).CRC then
          Except.error Err.blockCrcMismatch
        else decodeBlock data

/-- Default `Entry` for `getD` indexing in the in-block search. -/
def dEntry : Entry := ⟨[], []⟩

/-- The loop of `Reader.searchInBlock`: classic binary search with
`int` bounds (Go's `right` may be -1), comparing `entries[mid].Key`
against the key. -/
def searchLoop (es : List Entry) (key : Bytes) (l r : Int) : Except Err Bytes :=
  if _h : l ≤ r then
    let mid := (l + r) / 2
    match bytesCompare (es.getD mid.toNat dEntry).key key with
    | Ordering.eq => Except.ok (es.getD mid.toNat dEntry).value
    | Ordering.lt => searchLoop es key (mid + 1) r
    | Ordering.gt => searchLoop es key l (mid - 1)
  else Except.error Err.keyNotFound
termination_by (r - l + 1).toNat
decreasing_by
  all_goals omega

/-- `Reader.searchInBlock`. -/
def searchInBlock (es : List Entry) (key : Bytes) : Except Err Bytes :=
  searchLoop es key 0 ((es.length : Int) - 1)

/-- Result of `Reader.Get`: a value, an error, or the runtime panic
reachable through `findBlockHandle` on an empty index. -/
inductive GetResult where
  | ok (value : Bytes)
  | err (e : Err)
  | panicked
deriving Repr, DecidableEq

/-- `Reader.Get`: guard on a loaded index, find the candidate block
handle, read and verify that block, binary-search it for the key. -/
def Reader.Get (r : Reader) (key : Bytes) : GetResult :=
  match r.indexBlock with
  | none => GetResult.err Err.indexNotLoaded
  | some ib =>
    match findBlockHandle ib.entries key with
    | none => GetResult.panicked
    | some handle =>
      match readBlock r.file handle with
      | Except.error e => GetResult.err e
      | Except.ok block =>
        match searchInBlock block.entries key with
        | Except.error e => GetResult.err e
        | Except.ok v => GetResult.ok v

/-- Ascending (strictly, under `bytesCompare`) key order of an index
block's entries, as the writer produces and the index search assumes. -/
def ascKeys : List IndexEntry → Bool
  | [] => true
  | [_] => true
  | a :: b :: rest =>
    decide (bytesCompare a.Key b.Key = Ordering.lt) && ascKeys (b :: rest)

/-- A block built by a sequence of `AddEntry` calls starting from
`NewBlock`. -/
def buildBlock (ps : List (Bytes × Bytes)) : Block :=
  ps.foldl (fun b p => b.AddEntry p.1 p.2) NewBlock

/-! ## Theorems -/

theorem footer_encode_length (f : Footer) : f.Encode.length = 53 := by
  simp [Footer.Encode, le64, le32, le64i]

theorem flushBlock_idem (w : Writer) : w.flushBlock.flushBlock = w.flushBlock := by
  by_cases h : w.block.IsEmpty
  · simp [Writer.flushBlock, h]
  · simp only [Writer.flushBlock, h]
    simp [Block.IsEmpty, NewBlock]

theorem buildBlock_aux (ps : List (Bytes × Bytes)) :
    ∀ b : Block, b.size < 2^32 →
      (ps.foldl (fun b p => b.AddEntry p.1 p.2) b).entries
          = b.entries ++ ps.map (fun p => (⟨p.1, p.2⟩ : Entry)) ∧
      (ps.foldl (fun b p => b.AddEntry p.1 p.2) b).size
          = (b.size + (ps.map (fun p => p.1.length + p.2.length)).sum) % 2^32 := by
  induction ps with
  | nil =>
    intro b hb
    refine ⟨by simp, ?_⟩
    simp only [List.foldl_nil, List.map_nil, List.sum_nil, Nat.add_zero]
    omega
  | cons p ps ih =>
    intro b hb
    have hstep : (b.AddEntry p.1 p.2).size < 2^32 := by
      simp only [Block.AddEntry, u32]
      exact Nat.mod_lt _ (by norm_num)
    obtain ⟨he, hs⟩ := ih (b.AddEntry p.1 p.2) hstep
    constructor
    · simp only [List.foldl_cons]
      rw [he]
      simp [Block.AddEntry]
    · simp only [List.foldl_cons]
      rw [hs]
      simp only [Block.AddEntry, u32, List.map_cons, List.sum_cons]
      omega

/-- C9: a block built from `NewBlock` by `AddEntry` calls has `size`
equal to the wrapped (mod 2^32) sum of key+value lengths, `KeyCount`
equal to the number of calls, `IsEmpty` exactly when no call was made,
and every call appends unconditionally (no validation drops a pair). -/
theorem block_invariants (ps : List (Bytes × Bytes)) :
    (buildBlock ps).size = (ps.map (fun p => p.1.length + p.2.length)).sum % 2^32 ∧
    (buildBlock ps).KeyCount = ps.length ∧
    ((buildBlock ps).IsEmpty = true ↔ ps = []) ∧
    (buildBlock ps).entries = ps.map (fun p => (⟨p.1, p.2⟩ : Entry)) := by
  obtain ⟨he, hs⟩ := buildBlock_aux ps NewBlock (by norm_num [NewBlock])
  simp only [NewBlock, List.nil_append] at he hs
  refine ⟨?_, ?_, ?_, ?_⟩
  · simpa [buildBlock, NewBlock] using hs
  · simp [buildBlock, Block.KeyCount, NewBlock, he]
  · simp [buildBlock, Block.IsEmpty, NewBlock, he]
  · simpa [buildBlock, NewBlock] using he

/-- C8: `IsFull` is exactly `size ≥ 4096`; `Write` flushes the current
block first precisely when it is full at call time, otherwise the pair
lands in the same block with nothing written out; a block made
over-full by an addition is flushed by the next `Write` (conjunct 2
applied then) or by `Close`, whose first step is `flushBlock`. -/
theorem write_flush_policy (b : Block) (w : Writer) (k v : Bytes) :
    (b.IsFull = true ↔ 4096 ≤ b.size) ∧
    (w.block.IsFull = true →
      w.write k v = { w.flushBlock with block := w.flushBlock.block.AddEntry k v }) ∧
    (w.block.IsFull = false →
      w.write k v = { w with block := w.block.AddEntry k v }) ∧
    (w.block.IsFull = false →
      (w.write k v).out = w.out ∧ (w.write k v).index = w.index) ∧
    (∀ c : Int, w.close c = w.flushBlock.close c) := by
  refine ⟨?_, ?_, ?_, ?_, ?_⟩
  · simp [Block.IsFull, BlockSize]
  · intro h; simp [Writer.write, h]
  · intro h; simp [Writer.write, h]
  · intro h; simp [Writer.write, h]
  · intro c; simp only [Writer.close, flushBlock_idem]

/-- C10: a file shorter than the 64-byte footer makes `NewReader` fail
with the seek error (the seek target `size - 64` is negative), the
opened handle is closed, and no footer is ever interpreted. -/
theorem short_file_newReader (file : Bytes) (h : file.length < FooterSize) :
    (NewReader file).result = Except.error Err.seekErr ∧
    (NewReader file).fileClosed = true := by
  have hl : loadIndexBlock file = Except.error Err.seekErr := by
    simp [loadIndexBlock, h]
  simp [NewReader, hl]

theorem short_file_newReader_witness :
    ([] : Bytes).length < FooterSize ∧
    (NewReader []).result = Except.error Err.seekErr ∧
    (NewReader []).fileClosed = true :=
  ⟨by decide, short_file_newReader [] (by decide)⟩

theorem write_flush_policy_witness :
    ((⟨[], ⟨[⟨[97], [98]⟩], 5000⟩, ⟨[]⟩, 0⟩ : Writer).block.IsFull = true) ∧
    (⟨[], ⟨[⟨[97], [98]⟩], 5000⟩, ⟨[]⟩, 0⟩ : Writer).write [98] [99]
      = { (⟨[], ⟨[⟨[97], [98]⟩], 5000⟩, ⟨[]⟩, 0⟩ : Writer).flushBlock with
          block := (⟨[], ⟨[⟨[97], [98]⟩], 5000⟩, ⟨[]⟩, 0⟩ : Writer).flushBlock.block.AddEntry [98] [99] } :=
  ⟨by decide,
   (write_flush_policy (⟨[⟨[97], [98]⟩], 5000⟩ : Block)
     (⟨[], ⟨[⟨[97], [98]⟩], 5000⟩, ⟨[]⟩, 0⟩ : Writer) [98] [99]).2.1 (by decide)⟩

/-- C1 (code bug): writing the single pair `("a", "")` — an empty value
as the last entry of its block — then closing produces a file on which
`NewReader` succeeds, but `Get("a")` returns an `io.EOF` decode error
instead of the written empty value: `bytes.Reader.Read` on the
zero-length value slice at end-of-buffer yields `io.EOF`, which the
decode loop in `readBlock` treats as fatal. -/
theorem roundTrip_empty_value_bug :
    (NewReader (writeAll [([97], [])])).result
      = Except.ok ⟨writeAll [([97], [])], some ⟨[⟨[97], ⟨0, 1⟩⟩]⟩⟩ ∧
    Reader.Get ⟨writeAll [([97], [])], some ⟨[⟨[97], ⟨0, 1⟩⟩]⟩⟩ [97]
      = GetResult.err Err.eofErr := by
  set_option maxRecDepth 10000 in decide

/-- C2 (code bug): a table closed after zero writes has a valid footer
and an index block with zero entries, and `NewReader` accepts it; but
`Get` on any key then evaluates `entries[len(entries)-1]` with
`len(entries) = 0`, an index-out-of-range panic, instead of returning
the key-not-found error. -/
theorem empty_table_get_panics :
    (NewReader (writeAll [])).result = Except.ok ⟨writeAll [], some ⟨[]⟩⟩ ∧
    Reader.Get ⟨writeAll [], some ⟨[]⟩⟩ [97] = GetResult.panicked := by
  set_option maxRecDepth 10000 in decide

/-- C7 (code bug): the reader-side block decode is not strict about
declared lengths, and not an exact inverse of `Block.Encode`.  First
conjunct: a buffer whose final entry declares a 5-byte value with only
2 bytes remaining decodes successfully to a zero-padded truncated
value.  Second conjunct: the well-formed encoding of a block whose last
entry has an empty value fails to decode (`io.EOF` from
`bytes.Reader.Read` on an empty slice at end-of-buffer). -/
theorem decode_short_buffer_bug :
    decodeBlock [1, 0, 0, 0, 1, 0, 0, 0, 97, 5, 0, 0, 0, 98, 99]
      = Except.ok ⟨[⟨[97], [98, 99, 0, 0, 0]⟩], 0⟩ ∧
    decodeBlock (Block.Encode ⟨[⟨[97], []⟩], 1⟩) = Except.error Err.eofErr := by
  decide

theorem readBlock_offset_congr (file : Bytes) (h1 h2 : BlockHandle)
    (h : h1.Offset = h2.Offset) : readBlock file h1 = readBlock file h2 := by
  cases h1
  cases h2
  simp only at h
  subst h
  simp only [readBlock]

theorem getD_key_congr :
    ∀ (es1 es2 : List IndexEntry),
      es1.map IndexEntry.Key = es2.map IndexEntry.Key →
      ∀ i, (es1.getD i dIE).Key = (es2.getD i dIE).Key := by
  intro es1
  induction es1 with
  | nil =>
    intro es2 h i
    cases es2 with
    | nil => rfl
    | cons b bs => simp at h
  | cons a as ih =>
    intro es2 h i
    cases es2 with
    | nil => simp at h
    | cons b bs =>
      simp only [List.map_cons, List.cons.injEq] at h
      cases i with
      | zero => simpa using h.1
      | succ j => simpa using ih bs h.2 j

theorem getD_offset_congr :
    ∀ (es1 es2 : List IndexEntry),
      es1.map (fun e => e.blockHandle.Offset) = es2.map (fun e => e.blockHandle.Offset) →
      ∀ i, (es1.getD i dIE).blockHandle.Offset = (es2.getD i dIE).blockHandle.Offset := by
  intro es1
  induction es1 with
  | nil =>
    intro es2 h i
    cases es2 with
    | nil => rfl
    | cons b bs => simp at h
  | cons a as ih =>
    intro es2 h i
    cases es2 with
    | nil => simp at h
    | cons b bs =>
      simp only [List.map_cons, List.cons.injEq] at h
      cases i with
      | zero => simpa using h.1
      | succ j => simpa using ih bs h.2 j

theorem bsLoop_congr_aux (es1 es2 : List IndexEntry) (key : Bytes)
    (hk : ∀ i, (es1.getD i dIE).Key = (es2.getD i dIE).Key) :
    ∀ n l r, r - l ≤ n → bsLoop es1 key l r = bsLoop es2 key l r := by
  intro n
  induction n with
  | zero =>
    intro l r hle
    rw [bsLoop, bsLoop]
    have h : ¬ l < r := by omega
    simp [h]
  | succ m ih =>
    intro l r hle
    rw [bsLoop, bsLoop]
    by_cases h : l < r
    · simp only [dif_pos h]
      rw [hk ((l + r) / 2)]
      by_cases hc : bytesCompare ((es2.getD ((l + r) / 2) dIE)).Key key ≠ Ordering.gt
      · simp only [if_pos hc]
        exact ih ((l + r) / 2 + 1) r (by omega)
      · simp only [if_neg hc]
        exact ih l ((l + r) / 2) (by omega)
    · simp [h]

theorem bsLoop_congr (es1 es2 : List IndexEntry) (key : Bytes)
    (hk : ∀ i, (es1.getD i dIE).Key = (es2.getD i dIE).Key) (l r : Nat) :
    bsLoop es1 key l r = bsLoop es2 key l r :=
  bsLoop_congr_aux es1 es2 key hk (r - l) l r le_rfl

theorem findBlockHandle_offset_congr (es1 es2 : List IndexEntry) (key : Bytes)
    (hk : es1.map IndexEntry.Key = es2.map IndexEntry.Key)
    (ho : es1.map (fun e => e.blockHandle.Offset) = es2.map (fun e => e.blockHandle.Offset)) :
    (findBlockHandle es1 key).map BlockHandle.Offset
      = (findBlockHandle es2 key).map BlockHandle.Offset := by
  have hlen : es1.length = es2.length := by
    have := congrArg List.length hk
    simpa using this
  cases es1 with
  | nil =>
    cases es2 with
    | nil => rfl
    | cons b bs => simp at hlen
  | cons a as =>
    cases es2 with
    | nil => simp at hlen
    | cons b bs =>
      simp only [findBlockHandle]
      rw [← hlen]
      rw [getD_key_congr (a :: as) (b :: bs) hk ((a :: as).length - 1)]
      by_cases hcmp :
          bytesCompare key (((b :: bs).getD ((a :: as).length - 1) dIE)).Key ≠ Ordering.lt
      · simp only [if_pos hcmp]
        exact congrArg some (getD_offset_congr (a :: as) (b :: bs) ho _)
      · simp only [if_neg hcmp]
        rw [bsLoop_congr (a :: as) (b :: bs) key
          (getD_key_congr (a :: as) (b :: bs) hk) 0 ((a :: as).length - 1)]
        exact congrArg some (getD_offset_congr (a :: as) (b :: bs) ho _)

/-- C4: flushing a non-empty block records into the index a handle
whose `Size` is the pre-encode accumulated key+value sum `block.size`,
while the `BlockMetadata` written to disk carries `Size =
len(Encode())`; and the read path determines how many payload bytes to
read from the metadata alone — `readBlock` is independent of the
handle's `Size` field, so `Get` is unaffected by the discrepancy
(indexes agreeing on keys and offsets but with arbitrary handle sizes
give identical `Get` results). -/
theorem flush_and_read_sizes (w : Writer) (file : Bytes) (off s1 s2 : Nat)
    (h : w.block.IsEmpty = false) :
    w.flushBlock.index.entries
      = w.index.entries ++
        [⟨(w.block.entries.headD dEntry).key, ⟨w.offset, u64 w.block.size⟩⟩] ∧
    w.flushBlock.out
      = w.out ++
        encodeMetadata
          { btype := 0, CRC := calculateCRC w.block.Encode,
            Size := u32 w.block.Encode.length,
            KeyCount := u32 w.block.KeyCount, Compressed := false } ++
        w.block.Encode ∧
    readBlock file ⟨off, s1⟩ = readBlock file ⟨off, s2⟩ ∧
    (∀ es1 es2 key,
      es1.map IndexEntry.Key = es2.map IndexEntry.Key →
      es1.map (fun e => e.blockHandle.Offset) = es2.map (fun e => e.blockHandle.Offset) →
      Reader.Get ⟨file, some ⟨es1⟩⟩ key = Reader.Get ⟨file, some ⟨es2⟩⟩ key) := by
  refine ⟨?_, ?_, ?_, ?_⟩
  · simp [Writer.flushBlock, h, IBlock.AddEntry, dEntry]
  · simp [Writer.flushBlock, h]
  · exact readBlock_offset_congr file ⟨off, s1⟩ ⟨off, s2⟩ rfl
  · intro es1 es2 key hk ho
    have hmap := findBlockHandle_offset_congr es1 es2 key hk ho
    cases h1 : findBlockHandle es1 key with
    | none =>
      cases h2 : findBlockHandle es2 key with
      | none => simp only [Reader.Get, h1, h2]
      | some b2 => rw [h1, h2] at hmap; simp at hmap
    | some b1 =>
      cases h2 : findBlockHandle es2 key with
      | none => rw [h1, h2] at hmap; simp at hmap
      | some b2 =>
        have hoff : b1.Offset = b2.Offset := by
          rw [h1, h2] at hmap
          simpa using hmap
        simp only [Reader.Get, h1, h2]
        rw [readBlock_offset_congr file b1 b2 hoff]

theorem flush_and_read_sizes_witness :
    ((⟨[], ⟨[⟨[97], [98]⟩], 2⟩, ⟨[]⟩, 0⟩ : Writer).block.IsEmpty = false) ∧
    (⟨[], ⟨[⟨[97], [98]⟩], 2⟩, ⟨[]⟩, 0⟩ : Writer).flushBlock.index.entries
      = [⟨[97], ⟨0, 2⟩⟩] :=
  ⟨by decide,
   (flush_and_read_sizes ⟨[], ⟨[⟨[97], [98]⟩], 2⟩, ⟨[]⟩, 0⟩ [] 0 0 0 (by decide)).1⟩

theorem readU32_error {data : Bytes} {pos : Nat} {e : Err}
    (h : readU32 data pos = Except.error e) : e = Err.unexpectedEof := by
  unfold readU32 at h
  split at h
  · exact absurd h (by simp)
  · injection h with h
    exact h.symm

theorem readU64_error {data : Bytes} {pos : Nat} {e : Err}
    (h : readU64 data pos = Except.error e) : e = Err.unexpectedEof := by
  unfold readU64 at h
  split at h
  · exact absurd h (by simp)
  · injection h with h
    exact h.symm

theorem bufRead_error {data : Bytes} {pos k : Nat} {e : Err}
    (h : bufRead data pos k = Except.error e) : e = Err.eofErr := by
  unfold bufRead at h
  split at h
  · injection h with h
    exact h.symm
  · exact absurd h (by simp)

theorem decodeBlockLoop_error (data : Bytes) :
    ∀ n pos e, decodeBlockLoop data n pos = Except.error e →
      e = Err.unexpectedEof ∨ e = Err.eofErr := by
  intro n
  induction n with
  | zero =>
    intro pos e h
    simp [decodeBlockLoop] at h
  | succ m ih =>
    intro pos e h
    simp only [decodeBlockLoop] at h
    split at h
    · injection h with h; subst h
      next heq => exact Or.inl (readU32_error heq)
    split at h
    · injection h with h; subst h
      next heq => exact Or.inr (bufRead_error heq)
    split at h
    · injection h with h; subst h
      next heq => exact Or.inl (readU32_error heq)
    split at h
    · injection h with h; subst h
      next heq => exact Or.inr (bufRead_error heq)
    split at h
    · injection h with h; subst h
      next heq => exact ih _ _ heq
    · exact absurd h (by simp)

theorem decodeBlock_error {data : Bytes} {e : Err}
    (h : decodeBlock data = Except.error e) :
    e = Err.unexpectedEof ∨ e = Err.eofErr := by
  unfold decodeBlock at h
  split at h
  · injection h with h; subst h
    next heq => exact Or.inl (readU32_error heq)
  split at h
  · injection h with h; subst h
    next heq => exact decodeBlockLoop_error data _ _ _ heq
  · exact absurd h (by simp)

/-- C5: with the selected data block located at `bh` (metadata bytes
and the `metadata.Size`-byte payload both readable), a stored CRC that
differs from the CRC-32 of the payload makes `Get` surface the
block-CRC-mismatch error — never key-not-found, never a value; and
`Get` returns key-not-found only when the selected block's CRC check
passed, the block decoded, and the exact-match search missed. -/
theorem get_crc_distinction (file : Bytes) (ib : IBlock) (key : Bytes)
    (bh : BlockHandle) (mdBytes payload : Bytes)
    (hfind : findBlockHandle ib.entries key = some bh)
    (hoff : bh.Offset < 2^63)
    (hmd : readAt file bh.Offset MetadataSize = some mdBytes)
    (hpay : readAt file (bh.Offset + MetadataSize) (decodeMetadata mdBytes).Size
              = some payload) :
    (calculateCRC payload ≠ (decodeMetadata mdBytes).CRC →
      Reader.Get ⟨file, some ib⟩ key = GetResult.err Err.blockCrcMismatch) ∧
    (Reader.Get ⟨file, some ib⟩ key = GetResult.err Err.keyNotFound →
      calculateCRC payload = (decodeMetadata mdBytes).CRC ∧
      ∃ blk, decodeBlock payload = Except.ok blk ∧
        searchInBlock blk.entries key = Except.error Err.keyNotFound) := by
  have hguard : ¬ 2^63 ≤ bh.Offset := by omega
  have hrb : readBlock file bh =
      if calculateCRC payload ≠ (decodeMetadata mdBytes).CRC then
        Except.error Err.blockCrcMismatch
      else decodeBlock payload := by
    unfold readBlock
    rw [if_neg hguard, hmd]
    show (match readAt file (bh.Offset + MetadataSize) (decodeMetadata mdBytes).Size with
          | none => Except.error Err.unexpectedEof
          | some data =>
            if calculateCRC data ≠ (decodeMetadata mdBytes).CRC then
              Except.error Err.blockCrcMismatch
            else decodeBlock data) = _
    rw [hpay]
  constructor
  · intro hcrc
    simp only [Reader.Get, hfind, hrb, if_pos hcrc]
  · intro hget
    by_cases hcrc : calculateCRC payload = (decodeMetadata mdBytes).CRC
    · refine ⟨hcrc, ?_⟩
      rw [if_neg (by simpa using hcrc)] at hrb
      cases hdec : decodeBlock payload with
      | error e =>
        rw [hdec] at hrb
        simp only [Reader.Get, hfind, hrb] at hget
        injection hget with hget
        rcases decodeBlock_error hdec with h1 | h1 <;> simp [h1] at hget
      | ok blk =>
        rw [hdec] at hrb
        refine ⟨blk, rfl, ?_⟩
        simp only [Reader.Get, hfind, hrb] at hget
        cases hs : searchInBlock blk.entries key with
        | error e =>
          rw [hs] at hget
          simp at hget
          rw [hget]
        | ok v => rw [hs] at hget; exact absurd hget (by simp)
    · exfalso
      rw [if_pos hcrc] at hrb
      simp only [Reader.Get, hfind, hrb] at hget
      exact absurd hget (by simp)

set_option maxRecDepth 40000 in
theorem get_crc_distinction_witness :
    calculateCRC [1, 0, 0, 0, 1, 0, 0, 0, 96, 1, 0, 0, 0, 98]
      ≠ (decodeMetadata [0, 180, 6, 2, 254, 14, 0, 0, 0, 1, 0, 0, 0, 0]).CRC ∧
    Reader.Get ⟨(writeAll [([97], [98])]).set 22 96, some ⟨[⟨[97], ⟨0, 2⟩⟩]⟩⟩ [97]
      = GetResult.err Err.blockCrcMismatch :=
  ⟨by decide,
   (get_crc_distinction ((writeAll [([97], [98])]).set 22 96) ⟨[⟨[97], ⟨0, 2⟩⟩]⟩ [97]
     ⟨0, 2⟩ [0, 180, 6, 2, 254, 14, 0, 0, 0, 1, 0, 0, 0, 0]
     [1, 0, 0, 0, 1, 0, 0, 0, 96, 1, 0, 0, 0, 98]
     (by decide) (by decide)
     (by set_option maxRecDepth 10000 in decide)
     (by set_option maxRecDepth 10000 in decide)).1 (by decide)⟩

/-- C6: `NewReader` closes the file handle it opened exactly when
construction fails, so no reader value is ever produced from a failed
construction; and a successfully produced reader has passed every step
of `loadIndexBlock` — footer present (file at least 64 bytes), footer
decoded, magic number matched, index metadata readable with the
`IndexBlock` type, payload read of `metadata.Size` bytes, CRC
verified — and holds the decoded index block. -/
theorem newReader_construction (file : Bytes) :
    ((∃ e, (NewReader file).result = Except.error e) ↔
      (NewReader file).fileClosed = true) ∧
    (∀ r, (NewReader file).result = Except.ok r →
      (NewReader file).fileClosed = false ∧
      r.file = file ∧
      ∃ ib footerData footer mdBytes payload,
        r.indexBlock = some ib ∧
        FooterSize ≤ file.length ∧
        readAt file (file.length - FooterSize) FooterSize = some footerData ∧
        DecodeFooter footerData = Except.ok footer ∧
        footer.MagicNumber = MagicNumber ∧
        footer.IndexHandle.Offset < 2^63 ∧
        readAt file footer.IndexHandle.Offset MetadataSize = some mdBytes ∧
        (decodeMetadata mdBytes).btype = 1 ∧
        readAt file (footer.IndexHandle.Offset + MetadataSize)
            (decodeMetadata mdBytes).Size = some payload ∧
        calculateCRC payload = (decodeMetadata mdBytes).CRC ∧
        decodeIndexBlock payload = Except.ok ib) := by
  cases hload : loadIndexBlock file with
  | error e =>
    constructor
    · simp [NewReader, hload]
    · intro r hr
      simp [NewReader, hload] at hr
  | ok ib =>
    constructor
    · simp [NewReader, hload]
    · intro r hr
      simp only [NewReader, hload] at hr
      injection hr with hr
      subst hr
      refine ⟨by simp [NewReader, hload], rfl, ib, ?_⟩
      unfold loadIndexBlock at hload
      split at hload
      · exact absurd hload (by simp)
      next hlen =>
        split at hload
        · exact absurd hload (by simp)
        next footerData hfd =>
          split at hload
          · exact absurd hload (by simp)
          next footer hfoot =>
            split at hload
            · exact absurd hload (by simp)
            next hmagic =>
              split at hload
              · exact absurd hload (by simp)
              next hoffbig =>
                split at hload
                · exact absurd hload (by simp)
                next mdBytes hmdb =>
                  split at hload
                  · exact absurd hload (by simp)
                  next htype =>
                    split at hload
                    · exact absurd hload (by simp)
                    next payload hpay =>
                      split at hload
                      · exact absurd hload (by simp)
                      next hcrc =>
                        exact ⟨footerData, footer, mdBytes, payload, rfl,
                          by omega, hfd, hfoot, by simpa using hmagic,
                          by omega, hmdb, by simpa using htype, hpay,
                          by simpa using hcrc, hload⟩

set_option maxRecDepth 40000 in
theorem newReader_construction_witness :
    (NewReader (writeAll [([97], [98])])).result
      = Except.ok ⟨writeAll [([97], [98])], some ⟨[⟨[97], ⟨0, 2⟩⟩]⟩⟩ ∧
    (NewReader (writeAll [([97], [98])])).fileClosed = false :=
  ⟨by decide,
   ((newReader_construction (writeAll [([97], [98])])).2
     ⟨writeAll [([97], [98])], some ⟨[⟨[97], ⟨0, 2⟩⟩]⟩⟩ (by decide)).1⟩

theorem bytesCompare_gt_iff_lt :
    ∀ a b : Bytes, bytesCompare a b = Ordering.gt ↔ bytesCompare b a = Ordering.lt := by
  intro a
  induction a with
  | nil => intro b; cases b <;> simp [bytesCompare]
  | cons x as ih =>
    intro b
    cases b with
    | nil => simp [bytesCompare]
    | cons y bs =>
      simp only [bytesCompare]
      rcases Nat.lt_trichotomy x y with h | h | h
      · simp [h, Nat.lt_asymm h]
      · subst h
        simp [Nat.lt_irrefl]
        exact ih bs
      · simp [h, Nat.lt_asymm h]

theorem bytesCompare_lt_trans :
    ∀ a b c : Bytes, bytesCompare a b = Ordering.lt → bytesCompare b c = Ordering.lt →
      bytesCompare a c = Ordering.lt := by
  intro a
  induction a with
  | nil =>
    intro b c hab hbc
    cases c with
    | nil => cases b <;> simp [bytesCompare] at hab hbc
    | cons z cs => simp [bytesCompare]
  | cons x as ih =>
    intro b c hab hbc
    cases b with
    | nil => simp [bytesCompare] at hab
    | cons y bs =>
      cases c with
      | nil => simp [bytesCompare] at hbc
      | cons z cs =>
        simp only [bytesCompare] at hab hbc ⊢
        by_cases hxy : x < y
        · by_cases hyz : y < z
          · simp [show x < z by omega]
          · by_cases hzy : z < y
            · simp [hyz, hzy] at hbc
            · have hzy' : z = y := by omega
              subst hzy'
              simp [hxy]
        · by_cases hyx : y < x
          · simp [hxy, hyx] at hab
          · have hxy' : x = y := by omega
            subst hxy'
            simp [Nat.lt_irrefl] at hab
            by_cases hxz : x < z
            · simp [hxz]
            · by_cases hzx : z < x
              · simp [hxz, hzx] at hbc
              · have hzx' : z = x := by omega
                subst hzx'
                simp [Nat.lt_irrefl] at hbc ⊢
                exact ih bs cs hab hbc

theorem ascKeys_lt :
    ∀ (es : List IndexEntry), ascKeys es = true →
      ∀ i j, i < j → j < es.length →
        bytesCompare (es.getD i dIE).Key (es.getD j dIE).Key = Ordering.lt := by
  intro es
  induction es with
  | nil =>
    intro _ i j hij hj
    simp at hj
  | cons a tail ih =>
    intro hasc i j hij hj
    cases tail with
    | nil =>
      simp at hj
      omega
    | cons b rest =>
      have hab : bytesCompare a.Key b.Key = Ordering.lt := by
        simp [ascKeys, Bool.and_eq_true, decide_eq_true_eq] at hasc
        exact hasc.1
      have htail : ascKeys (b :: rest) = true := by
        simp [ascKeys, Bool.and_eq_true, decide_eq_true_eq] at hasc
        simpa [ascKeys, Bool.and_eq_true, decide_eq_true_eq] using hasc.2
      cases i with
      | zero =>
        cases j with
        | zero => omega
        | succ j' =>
          simp only [List.getD_cons_zero, List.getD_cons_succ]
          cases j' with
          | zero => simpa using hab
          | succ j'' =>
            have h2 := ih htail 0 (j'' + 1) (by omega)
              (by simp at hj ⊢; omega)
            simp only [List.getD_cons_zero] at h2
            exact bytesCompare_lt_trans a.Key b.Key _ hab h2
      | succ i' =>
        cases j with
        | zero => omega
        | succ j' =>
          simp only [List.getD_cons_succ]
          exact ih htail i' j' (by omega) (by simp at hj ⊢; omega)

theorem bsLoop_least (es : List IndexEntry) (key : Bytes)
    (mono : ∀ i j, i ≤ j → j < es.length →
      bytesCompare (es.getD i dIE).Key key = Ordering.gt →
      bytesCompare (es.getD j dIE).Key key = Ordering.gt) :
    ∀ n l r, r - l ≤ n → l ≤ r → r < es.length →
      bytesCompare (es.getD r dIE).Key key = Ordering.gt →
      l ≤ bsLoop es key l r ∧ bsLoop es key l r ≤ r ∧
      bytesCompare (es.getD (bsLoop es key l r) dIE).Key key = Ordering.gt ∧
      ∀ i, l ≤ i → i < bsLoop es key l r →
        bytesCompare (es.getD i dIE).Key key ≠ Ordering.gt := by
  intro n
  induction n with
  | zero =>
    intro l r hn hlr hrlen hgt
    have hlr' : l = r := by omega
    subst hlr'
    rw [bsLoop, dif_neg (lt_irrefl l)]
    exact ⟨le_rfl, le_rfl, hgt, fun i h1 h2 => absurd (lt_of_le_of_lt h1 h2) (lt_irrefl l)⟩
  | succ m ih =>
    intro l r hn hlr hrlen hgt
    rw [bsLoop]
    by_cases h : l < r
    · simp only [dif_pos h]
      have hmidl : l ≤ (l + r) / 2 := by omega
      have hmidr : (l + r) / 2 < r := by omega
      by_cases hc : bytesCompare ((es.getD ((l + r) / 2) dIE)).Key key ≠ Ordering.gt
      · simp only [if_pos hc]
        obtain ⟨h1, h2, h3, h4⟩ :=
          ih ((l + r) / 2 + 1) r (by omega) (by omega) hrlen hgt
        refine ⟨by omega, h2, h3, ?_⟩
        intro i hli hibs
        by_cases hi : (l + r) / 2 + 1 ≤ i
        · exact h4 i hi hibs
        · intro hgti
          exact hc (mono i ((l + r) / 2) (by omega) (by omega) hgti)
      · simp only [if_neg hc]
        push_neg at hc
        obtain ⟨h1, h2, h3, h4⟩ :=
          ih l ((l + r) / 2) (by omega) (by omega) (by omega) hc
        exact ⟨h1, by omega, h3, h4⟩
    · rw [dif_neg h]
      have hlr' : l = r := by omega
      subst hlr'
      exact ⟨le_rfl, le_rfl, hgt, fun i h1 h2 => absurd (lt_of_le_of_lt h1 h2) (lt_irrefl l)⟩

/-- C3: on a non-empty, strictly-ascending index, `findBlockHandle`
returns the last entry's handle when the search key compares greater
than or equal to the last key; otherwise, writing `j` for the first
index whose key compares greater than the search key (hypotheses
characterize `j`), it returns the handle of entry `j - 1` clamped to
entry 0.  When `j > 0` that entry is the one with the greatest
first-key less than or equal to the search key; when `j = 0` every
index key is greater than the search key and entry 0 is returned. -/
theorem findBlockHandle_spec (es : List IndexEntry) (key : Bytes)
    (hne : es ≠ []) (hasc : ascKeys es = true) :
    (bytesCompare key ((es.getD (es.length - 1) dIE)).Key ≠ Ordering.lt →
      findBlockHandle es key = some ((es.getD (es.length - 1) dIE)).blockHandle) ∧
    (bytesCompare key ((es.getD (es.length - 1) dIE)).Key = Ordering.lt →
      ∀ j, j < es.length →
        bytesCompare ((es.getD j dIE)).Key key = Ordering.gt →
        (∀ i, i < j → bytesCompare ((es.getD i dIE)).Key key ≠ Ordering.gt) →
        findBlockHandle es key
          = some ((es.getD (if j = 0 then 0 else j - 1) dIE)).blockHandle ∧
        (0 < j →
          bytesCompare ((es.getD (j - 1) dIE)).Key key ≠ Ordering.gt ∧
          ∀ i, i < es.length →
            bytesCompare ((es.getD i dIE)).Key key ≠ Ordering.gt → i ≤ j - 1) ∧
        (j = 0 → ∀ i, i < es.length →
          bytesCompare ((es.getD i dIE)).Key key = Ordering.gt)) := by
  have mono : ∀ i j, i ≤ j → j < es.length →
      bytesCompare (es.getD i dIE).Key key = Ordering.gt →
      bytesCompare (es.getD j dIE).Key key = Ordering.gt := by
    intro i j hij hj hgti
    rcases Nat.eq_or_lt_of_le hij with heq | hlt
    · subst heq; exact hgti
    · have hkey : bytesCompare key ((es.getD i dIE)).Key = Ordering.lt :=
        (bytesCompare_gt_iff_lt _ _).mp hgti
      have hij' : bytesCompare ((es.getD i dIE)).Key ((es.getD j dIE)).Key
          = Ordering.lt := ascKeys_lt es hasc i j hlt hj
      exact (bytesCompare_gt_iff_lt _ _).mpr
        (bytesCompare_lt_trans key _ _ hkey hij')
  cases es with
  | nil => exact absurd rfl hne
  | cons a as =>
    constructor
    · intro hge
      simp only [findBlockHandle, if_pos hge]
    · intro hlt j hj hgtj hminj
      have hgtlast : bytesCompare (((a :: as).getD ((a :: as).length - 1) dIE)).Key key
          = Ordering.gt := (bytesCompare_gt_iff_lt _ _).mpr hlt
      obtain ⟨h1, h2, h3, h4⟩ := bsLoop_least (a :: as) key mono
        ((a :: as).length - 1) 0 ((a :: as).length - 1) (by omega) (by omega)
        (by simp) hgtlast
      have hbsj : bsLoop (a :: as) key 0 ((a :: as).length - 1) = j := by
        rcases Nat.lt_trichotomy (bsLoop (a :: as) key 0 ((a :: as).length - 1)) j
          with hc | hc | hc
        · exact absurd h3 (hminj _ hc)
        · exact hc
        · exact absurd hgtj (h4 j (Nat.zero_le j) hc)
      refine ⟨?_, ?_, ?_⟩
      · simp only [findBlockHandle, if_neg (not_not_intro hlt)]
        rw [hbsj]
        by_cases hj0 : j = 0
        · simp [hj0]
        · simp [hj0, Nat.pos_of_ne_zero hj0]
      · intro hjpos
        refine ⟨?_, ?_⟩
        · rw [← hbsj] at hjpos ⊢
          exact h4 _ (Nat.zero_le _) (by omega)
        · intro i hi hngt
          by_contra hcon
          push_neg at hcon
          exact hngt (mono j i (by omega) hi hgtj)
      · intro hj0 i hi
        exact mono j i (by omega) hi hgtj

theorem findBlockHandle_spec_witness :
    ([⟨[1], ⟨0, 5⟩⟩, ⟨[3], ⟨20, 6⟩⟩, ⟨[5], ⟨40, 7⟩⟩] : List IndexEntry) ≠ [] ∧
    ascKeys [⟨[1], ⟨0, 5⟩⟩, ⟨[3], ⟨20, 6⟩⟩, ⟨[5], ⟨40, 7⟩⟩] = true ∧
    findBlockHandle [⟨[1], ⟨0, 5⟩⟩, ⟨[3], ⟨20, 6⟩⟩, ⟨[5], ⟨40, 7⟩⟩] [2]
      = some ⟨0, 5⟩ :=
  ⟨by decide, by decide,
   ((findBlockHandle_spec [⟨[1], ⟨0, 5⟩⟩, ⟨[3], ⟨20, 6⟩⟩, ⟨[5], ⟨40, 7⟩⟩] [2]
       (by decide) (by decide)).2 (by decide) 1 (by decide) (by decide)
       (by decide)).1⟩

end GoLsm
